import Mathlib

/-!
Verification of the `react-tree-stream` core against its specification.

The development shallowly embeds the repository's core modules:

* `src/package/src/nested.ts` / `plan` module — `buildPlan`, `isTreeStreamElement`,
  `planSignature`;
* `src/package/src/useSequentialScheduler.ts` — the reducer (`streamReducer`,
  `initialStreamState`) and the token-fenced scheduler;
* `src/package/src/TreeStream.tsx` — the orchestrator (`runUnit`, the text-tick
  effect, the reset effect, and the composed nested completion hook).

JavaScript strings are modelled as `List Char` (Unicode scalar values); JS
`Map<number, ReactNode>` is modelled as an insertion-ordered association list
with JS `Map.set` update semantics; JS numbers appearing as React children are
modelled by their `String(n)` representation, which is the only observation
`buildPlan` makes of them.
-/

namespace TreeStreamVerif

/-- A JavaScript string, modelled as its list of Unicode scalar values. -/
abbrev JStr := List Char

/-- Character class of the JS regex `\s` (and of `String.prototype.trim`):
ECMAScript WhiteSpace ∪ LineTerminator. -/
def isJsWhitespace (c : Char) : Bool :=
  let n := c.toNat
  (9 ≤ n && n ≤ 13) || n == 32 || n == 160 || n == 0x1680 ||
    (0x2000 ≤ n && n ≤ 0x200A) || n == 0x2028 || n == 0x2029 ||
    n == 0x202F || n == 0x205F || n == 0x3000 || n == 0xFEFF

/-- Head of a `dropWhile` result never satisfies the predicate. -/
theorem dropWhile_head_false {p : Char → Bool} :
    ∀ (l : List Char) (c : Char) (t : List Char),
      l.dropWhile p = c :: t → p c = false := by
  intro l
  induction l with
  | nil => intro c t h; simp [List.dropWhile] at h
  | cons a l ih =>
    intro c t h
    by_cases hp : p a
    · rw [List.dropWhile_cons_of_pos hp] at h
      exact ih c t h
    · rw [List.dropWhile_cons_of_neg hp] at h
      cases h
      simpa using hp

/-- JS `content.split(/(\s+)/)` from `runUnit`'s `text_stream` case: split the
string at maximal whitespace runs, and (because the separator is a capturing
group) keep the whitespace runs themselves as tokens.  The result alternates
(possibly empty) non-whitespace chunks with non-empty whitespace runs, exactly
as the JS engine produces them. -/
def jsSplitWs (s : JStr) : List JStr :=
  match h : s.dropWhile (fun c => !isJsWhitespace c) with
  | [] => [s.takeWhile (fun c => !isJsWhitespace c)]
  | c :: t =>
      s.takeWhile (fun c => !isJsWhitespace c) ::
        ((c :: t).takeWhile isJsWhitespace) ::
          jsSplitWs ((c :: t).dropWhile isJsWhitespace)
termination_by s.length
decreasing_by
  have hc : isJsWhitespace c = true := by
    have := dropWhile_head_false (p := fun c => !isJsWhitespace c) s c t h
    simpa using this
  have h1 : ((c :: t).dropWhile isJsWhitespace).length ≤ t.length := by
    rw [List.dropWhile_cons_of_pos hc]
    exact (List.dropWhile_sublist isJsWhitespace).length_le
  have h2 : (c :: t).length ≤ s.length := by
    rw [← h]
    exact (List.dropWhile_sublist (fun c => !isJsWhitespace c)).length_le
  simp only [List.length_cons] at h2
  omega

/-- JS `content.split('')` from `runUnit`'s `text_stream` case: one token per
character. -/
def jsSplitChars (s : JStr) : List JStr :=
  s.map (fun c => [c])

/-- The tokens produced by `runUnit` for a `text_stream` unit, per the
`streamBy` configuration. -/
def tokenize (byChar : Bool) (content : JStr) : List JStr :=
  if byChar then jsSplitChars content else jsSplitWs content

/-! ### Plan model (`src/package/src/nested.ts` and the plan module)

React element types are modelled by the four fields `isTreeStreamElement`
inspects: the capability marker on the function itself, the marker one
`.type` hop away (a `React.memo` wrapper), the marker one `.render` hop away
(a `forwardRef` wrapper), and `displayName`.  An absent hop or marker is
`false` / `none`.  Elements additionally carry a numeric identity so that
"changing only node identity" is expressible. -/

/-- The fields of a React element's `type` that nested-stream detection reads. -/
structure RElemType where
  marker : Bool
  typeMarker : Bool
  renderMarker : Bool
  displayName : Option JStr
deriving DecidableEq

/-- A React element: its `type`'s detection-relevant fields plus an opaque
reference identity. -/
structure RElem where
  ty : RElemType
  elemId : Nat
deriving DecidableEq

/-- A renderable React node, as consumed by `buildPlan`: `null`/`undefined`,
booleans, strings, numbers (observed only through `String(n)`, carried as
`numRepr`), arrays, fragments, and proper elements. -/
inductive ReactNode where
  | nullNode
  | boolNode (b : Bool)
  | strNode (s : JStr)
  | numNode (numRepr : JStr)
  | arrNode (xs : List ReactNode)
  | fragNode (children : ReactNode)
  | elemNode (e : RElem)

/-- `isTreeStreamElement` from `nested.ts`: the marker on the function itself,
through one `React.memo` hop (`.type`), through one `forwardRef` hop
(`.render`), or the `displayName === 'TreeStream'` fallback. -/
def isTreeStreamElement (t : RElemType) : Bool :=
  t.marker || t.typeMarker || t.renderMarker ||
    t.displayName == some "TreeStream".data

/-- JS `String.prototype.trim`: strip leading and trailing whitespace. -/
def jsTrim (s : JStr) : JStr :=
  ((s.dropWhile isJsWhitespace).reverse.dropWhile isJsWhitespace).reverse

/-- An execution unit of a plan (the `ExecutionUnit` union of the plan
module). -/
inductive ExecutionUnit where
  | text_stream (content : JStr)
  | instant_render (content : RElem)
  | nested_stream (component : RElem)
deriving DecidableEq

mutual

/-- `buildPlan` from the plan module: flatten a React node tree into a linear
plan.  `null`/booleans vanish; a string survives iff its `trim()` is truthy
(non-empty); a number contributes its string representation; arrays and
fragments flatten; detected TreeStream elements become `nested_stream` units;
everything else is an `instant_render` unit. -/
def buildPlan : ReactNode → List ExecutionUnit
  | .nullNode => []
  | .boolNode _ => []
  | .strNode s => if jsTrim s = [] then [] else [.text_stream s]
  | .numNode r => [.text_stream r]
  | .arrNode xs => buildPlanList xs
  | .fragNode children => buildPlan children
  | .elemNode e =>
      if isTreeStreamElement e.ty then [.nested_stream e] else [.instant_render e]

/-- `node.flatMap(buildPlan)` over an array of children. -/
def buildPlanList : List ReactNode → List ExecutionUnit
  | [] => []
  | x :: xs => buildPlan x ++ buildPlanList xs

end

/-! #### The spec-side plan builder (§4.1 of the spec), for the refinement
claim C8.  It follows the spec's words: a string is kept iff it contains any
non-whitespace character, and a node is a stream instance iff the capability
marker sits on the node's implementation, one identity-preserving hop
(`.type`) away, one call-delegation hop (`.render`) away, or the
conventionally-named identifier matches. -/

/-- Spec §4.1a: nested-instance detection, stated from the spec's words. -/
def specIsStreamInstance (t : RElemType) : Bool :=
  t.marker || t.typeMarker || t.renderMarker ||
    t.displayName == some "TreeStream".data

mutual

/-- Spec §4.1 `transform(node) -> Plan`, stated from the spec's words. -/
def specTransform : ReactNode → List ExecutionUnit
  | .nullNode => []
  | .boolNode _ => []
  | .strNode s =>
      if s.any (fun c => !isJsWhitespace c) then [.text_stream s] else []
  | .numNode r => [.text_stream r]
  | .arrNode xs => specTransformList xs
  | .fragNode children => specTransform children
  | .elemNode e =>
      if specIsStreamInstance e.ty then [.nested_stream e] else [.instant_render e]

/-- Spec §4.1: an ordered collection flattens each element's sub-plan in
order. -/
def specTransformList : List ReactNode → List ExecutionUnit
  | [] => []
  | x :: xs => specTransform x ++ specTransformList xs

end

/-! ### Plan signature (`planSignature` in the plan module)

`planSignature` is `JSON.stringify(plan.map(u => ...))` where a text unit maps
to `['T', content]`, a nested unit to `['N']` and an instant unit to `['I']`.
The embedding renders the exact JSON text `JSON.stringify` produces,
including its string-escaping rules (ECMA-262 `QuoteJSONString`). -/

/-- Lowercase hexadecimal digit, as produced by `JSON.stringify`'s
`UnicodeEscape`. -/
def hexDigitChar (n : Nat) : Char :=
  if n < 10 then Char.ofNat (48 + n) else Char.ofNat (87 + n)

/-- ECMA-262 `QuoteJSONString` escaping of one character: `"` and `\` get a
backslash, the five named control characters use their short escapes, all
other code points below U+0020 use `\u00xx`, and every other character is
emitted verbatim. -/
def jsonEscapeChar (c : Char) : List Char :=
  if c = '"' then ['\\', '"']
  else if c = '\\' then ['\\', '\\']
  else if c = Char.ofNat 8 then ['\\', 'b']
  else if c = Char.ofNat 9 then ['\\', 't']
  else if c = Char.ofNat 10 then ['\\', 'n']
  else if c = Char.ofNat 12 then ['\\', 'f']
  else if c = Char.ofNat 13 then ['\\', 'r']
  else if c.toNat < 32 then
    ['\\', 'u', '0', '0', hexDigitChar (c.toNat / 16), hexDigitChar (c.toNat % 16)]
  else [c]

/-- `QuoteJSONString` over a whole string (without the surrounding quotes). -/
def jsonEscape (s : JStr) : JStr :=
  s.flatMap jsonEscapeChar

/-- The JSON text `JSON.stringify` produces for one mapped unit:
`["T","<content>"]`, `["N"]`, or `["I"]`. -/
def encodeUnit : ExecutionUnit → JStr
  | .text_stream s =>
      '[' :: '"' :: 'T' :: '"' :: ',' :: '"' :: (jsonEscape s ++ ['"', ']'])
  | .nested_stream _ => ['[', '"', 'N', '"', ']']
  | .instant_render _ => ['[', '"', 'I', '"', ']']

/-- The comma-separated body of the outer JSON array. -/
def sigBody : List ExecutionUnit → JStr
  | [] => []
  | u :: rest =>
      encodeUnit u ++ (if rest.isEmpty then [] else ',' :: sigBody rest)

/-- `planSignature` from the plan module: the exact string
`JSON.stringify(plan.map(...))` evaluates to. -/
def planSignature (plan : List ExecutionUnit) : JStr :=
  '[' :: (sigBody plan ++ [']'])

/-- The information `planSignature` is meant to capture for one unit: the
unit kind, plus the content for text units. -/
inductive UnitKey where
  | T (content : JStr)
  | N
  | I
deriving DecidableEq

/-- Key of one unit: kind plus content-if-text; node identity is dropped. -/
def unitKey : ExecutionUnit → UnitKey
  | .text_stream s => .T s
  | .instant_render _ => .I
  | .nested_stream _ => .N

/-- Bare unit kind. -/
inductive UnitKind where
  | text
  | instant
  | nested
deriving DecidableEq

/-- Kind of one unit. -/
def unitKind : ExecutionUnit → UnitKind
  | .text_stream _ => .text
  | .instant_render _ => .instant
  | .nested_stream _ => .nested

/-- Content of the unit at position `i`, when that unit is a text unit. -/
def textContentAt (p : List ExecutionUnit) (i : Nat) : Option JStr :=
  match p[i]? with
  | some (.text_stream s) => some s
  | _ => none

/-- Value of a lowercase hexadecimal digit (inverse of `hexDigitChar` on the
digits it produces). -/
def hexVal (c : Char) : Nat :=
  if 97 ≤ c.toNat then c.toNat - 87 else c.toNat - 48

/-- Single-step decoder for `QuoteJSONString` output: read one (possibly
escaped) character off the front of an escaped string.  Used to prove that
the escaping is injective. -/
def decodeOne : JStr → Option (Char × JStr)
  | [] => none
  | c :: rest =>
    if c = '\\' then
      match rest with
      | [] => none
      | e :: rest2 =>
        if e = '"' then some ('"', rest2)
        else if e = '\\' then some ('\\', rest2)
        else if e = 'b' then some (Char.ofNat 8, rest2)
        else if e = 't' then some (Char.ofNat 9, rest2)
        else if e = 'n' then some (Char.ofNat 10, rest2)
        else if e = 'f' then some (Char.ofNat 12, rest2)
        else if e = 'r' then some (Char.ofNat 13, rest2)
        else if e = 'u' then
          match rest2 with
          | d1 :: d2 :: d3 :: d4 :: rest3 =>
              some (Char.ofNat
                (hexVal d1 * 4096 + hexVal d2 * 256 + hexVal d3 * 16 + hexVal d4),
                rest3)
          | _ => none
        else none
    else some (c, rest)

/-! ### Stream state machine (`streamReducer` in `useSequentialScheduler.ts`)

`rendered` is a JS `Map<number, ReactNode>`: an insertion-ordered association
list whose `set` updates an existing key in place and appends a fresh one. -/

/-- A value stored in the `rendered` map: the cumulative text of a text unit,
an instantly rendered node, or the rewritten (cloned) nested element. -/
inductive RVal where
  | text (s : JStr)
  | node (elemId : Nat)
  | nestedNode (elemId : Nat)
deriving DecidableEq

/-- JS `Map.set`: update in place if the key is present, else append. -/
def msetEntry : List (Nat × RVal) → Nat → RVal → List (Nat × RVal)
  | [], k, v => [(k, v)]
  | (k', v') :: rest, k, v =>
      if k' = k then (k, v) :: rest else (k', v') :: msetEntry rest k v

/-- JS `Map.has`. -/
def mhas (m : List (Nat × RVal)) (k : Nat) : Bool :=
  (m.lookup k).isSome

/-- The `text` substate of `StreamState`. -/
structure TextState where
  tokens : List JStr
  index : Nat
  activeUnit : Option Nat
  streaming : Bool
deriving DecidableEq

/-- `StreamState` from `useSequentialScheduler.ts`. -/
structure StreamState where
  unitIndex : Nat
  waitingNested : Bool
  rendered : List (Nat × RVal)
  text : TextState
  complete : Bool
deriving DecidableEq

/-- `StreamAction` from `useSequentialScheduler.ts`. -/
inductive StreamAction where
  | RESET
  | START
  | BEGIN_TEXT (unitIndex : Nat) (tokens : List JStr)
  | TEXT_TICK (nextIndex : Nat) (content : JStr)
  | END_TEXT
  | ADVANCE
  | INSTANT_RENDER (unitIndex : Nat) (node : RVal)
  | NESTED_START (unitIndex : Nat) (node : RVal)
  | NESTED_DONE
  | COMPLETE
deriving DecidableEq

/-- `initialStreamState`. -/
def initialStreamState : StreamState :=
  { unitIndex := 0
    waitingNested := false
    rendered := []
    text := { tokens := [], index := 0, activeUnit := none, streaming := false }
    complete := false }

/-- `streamReducer`, translated case by case. -/
def streamReducer (state : StreamState) (action : StreamAction) : StreamState :=
  match action with
  | .RESET => initialStreamState
  | .START => state
  | .BEGIN_TEXT unitIndex tokens =>
      let rendered :=
        if mhas state.rendered unitIndex then state.rendered
        else msetEntry state.rendered unitIndex (.text [])
      { state with
        text := { tokens := tokens, index := 0, activeUnit := some unitIndex, streaming := true }
        rendered := rendered }
  | .TEXT_TICK nextIndex content =>
      let rendered :=
        match state.text.activeUnit with
        | some u => msetEntry state.rendered u (.text content)
        | none => state.rendered
      { state with
        text := { state.text with index := nextIndex }
        rendered := rendered }
  | .END_TEXT => { state with text := { state.text with streaming := false } }
  | .ADVANCE => { state with unitIndex := state.unitIndex + 1 }
  | .INSTANT_RENDER unitIndex node =>
      { state with rendered := msetEntry state.rendered unitIndex node }
  | .NESTED_START unitIndex node =>
      { state with waitingNested := true, rendered := msetEntry state.rendered unitIndex node }
  | .NESTED_DONE => { state with waitingNested := false }
  | .COMPLETE => { state with complete := true }

/-! ### The text tick (`TreeStream.tsx`, text tick effect)

The scheduled tick closure computes
`nextIndex = Math.min(text.index + Math.max(1, speed), text.tokens.length)`
and `content = text.tokens.slice(0, nextIndex).join('')`, then dispatches
`TEXT_TICK`. -/

/-- The `TEXT_TICK` action the scheduled tick closure dispatches, computed
from the captured text substate. -/
def textTickAction (speed : Nat) (t : TextState) : StreamAction :=
  let step := max 1 speed
  let nextIndex := min (t.index + step) t.tokens.length
  .TEXT_TICK nextIndex ((t.tokens.take nextIndex).flatten)

/-- One complete text tick: compute the action from the current text substate
and dispatch it. -/
def textTick (speed : Nat) (s : StreamState) : StreamState :=
  streamReducer s (textTickAction speed s.text)

/-! ### Token-fenced scheduler (`useSequentialScheduler.ts`)

The scheduler is modelled as a trace semantics.  Callbacks are identified by
numeric ids; the observable effect of executing one is appending its id to
`executed`.  `schedule` tags the callback with the current run token; a
firing timer executes its callback only when its token is still current;
`cancelAll` clears the pending queue; `nextRunToken` increments the token and
clears the queue. -/

/-- A pending timer: the run token it was scheduled under and its callback. -/
structure SchedEntry where
  token : Nat
  fnId : Nat
deriving DecidableEq

/-- Scheduler state plus the observable list of executed callbacks. -/
structure SchedState where
  runId : Nat
  pending : List SchedEntry
  executed : List Nat
deriving DecidableEq

/-- One scheduler event: an API call, or timer number `idx` of the pending
queue firing. -/
inductive SchedOp where
  | schedule (fnId : Nat)
  | cancelAll
  | nextRunToken
  | fire (idx : Nat)
deriving DecidableEq

/-- Scheduler semantics of one event, following `useSequentialScheduler.ts`:
`schedule` enqueues the callback tagged with the current token; `cancelAll`
clears the queue; `nextRunToken` increments the token and clears the queue;
a firing timer is removed and its callback runs only if its token is still
current. -/
def schedStep (s : SchedState) : SchedOp → SchedState
  | .schedule fnId => { s with pending := s.pending ++ [⟨s.runId, fnId⟩] }
  | .cancelAll => { s with pending := [] }
  | .nextRunToken => { s with runId := s.runId + 1, pending := [] }
  | .fire idx =>
      match s.pending[idx]? with
      | none => s
      | some e =>
          if e.token = s.runId then
            { s with pending := s.pending.eraseIdx idx, executed := s.executed ++ [e.fnId] }
          else
            { s with pending := s.pending.eraseIdx idx }

/-- Run a trace of scheduler events from the initial scheduler state. -/
def schedRun (ops : List SchedOp) : SchedState :=
  ops.foldl schedStep { runId := 0, pending := [], executed := [] }

/-! ### The composed nested completion hook (`TreeStream.tsx`, nested case)

`runUnit`'s `nested_stream` case wraps the child's pre-existing `onComplete`
as `() => { try { childExisting?.(); } finally { dispatch NESTED_DONE;
dispatch ADVANCE; scheduleNext(() => runUnit(next), 0); } }`.  The child's
hook is modelled by its outcome (`none` = no hook present, `some (.ok ())` =
returned normally, `some (.error e)` = raised `e`); the `finally` block runs
in every case and a raised condition is rethrown afterwards. -/

/-- An observable event of the composed hook's execution. -/
inductive HookEv where
  | childCompletionHook
  | dispatched (a : StreamAction)
  | scheduledRun (i : Nat)
deriving DecidableEq

/-- State the composed hook acts on: the parent's stream state, the queue of
scheduled `runUnit` continuations, and an event trace. -/
structure HookState where
  stream : StreamState
  queue : List Nat
  trace : List HookEv
deriving DecidableEq

/-- Dispatch one action to the parent reducer, recording the event. -/
def hookDispatch (a : StreamAction) (h : HookState) : HookState :=
  { h with stream := streamReducer h.stream a, trace := h.trace ++ [.dispatched a] }

/-- Schedule the continuation `runUnit i`, recording the event. -/
def hookSchedule (i : Nat) (h : HookState) : HookState :=
  { h with queue := h.queue ++ [i], trace := h.trace ++ [.scheduledRun i] }

/-- The composed completion hook: `try { childExisting?.() } finally
{ NESTED_DONE; ADVANCE; schedule runUnit (unitIndex+1) }`, rethrowing any
condition the child's hook raised. -/
def composedHook (childExisting : Option (Except JStr Unit)) (unitIndex : Nat)
    (h : HookState) : HookState × Option JStr :=
  let afterChild : HookState :=
    match childExisting with
    | none => h
    | some _ => { h with trace := h.trace ++ [.childCompletionHook] }
  let raised : Option JStr :=
    match childExisting with
    | some (.error e) => some e
    | _ => none
  (hookSchedule (unitIndex + 1)
      (hookDispatch .ADVANCE (hookDispatch .NESTED_DONE afterChild)),
    raised)

/-! ### One-run orchestration (`TreeStream.tsx`)

A single run under one scheduler token, over one fixed plan.  The
configuration fixes `streamBy` and `speed`.  Pending events are the
token-fenced `runUnit` continuations plus the composed completion hook of a
started nested unit (which fires when the child completes).  `completions`
counts invocations of the completion callback (`onCompleteRef.current?.()`). -/

/-- Orchestrator configuration: `streamBy === 'character'` and `speed`. -/
structure OrchConfig where
  byChar : Bool
  speed : Nat
deriving DecidableEq

/-- A pending continuation of the run. -/
inductive PendingEv where
  | runU (i : Nat)
  | nestedHook (i : Nat)
deriving DecidableEq

/-- Orchestration state: the reducer state, the pending continuations, and
the number of completion-callback invocations so far. -/
structure Orch where
  st : StreamState
  pending : List PendingEv
  completions : Nat
deriving DecidableEq

/-- `runUnit(unitIndex)` from `TreeStream.tsx`.  `runUnit` is memoized with
`useCallback(..., [])` (empty dependency list), so its closure keeps the
first render's `plan`: the terminal-boundary check `unitIndex >= plan.length`
reads that mount-time plan's length, while the unit itself is read from the
latest plan (`const currentPlan = latestPlanRef.current`).  The model keeps
both: `mountLen` is the length of the mount-time closure plan, `plan` is the
current plan.  At or past the mount-time boundary it dispatches `COMPLETE`
and invokes the completion callback; otherwise it looks the unit up in the
current plan and returns with no action when the index is outside the
current plan (`if (!unit) return`); a text unit is tokenized and
`BEGIN_TEXT` dispatched; an instant unit dispatches `INSTANT_RENDER` then
`ADVANCE` and schedules the continuation; a nested unit dispatches
`NESTED_START` with the rewritten child and waits for the composed hook. -/
def runUnitStep (mountLen : Nat) (plan : List ExecutionUnit) (cfg : OrchConfig)
    (i : Nat) (o : Orch) : Orch :=
  if mountLen ≤ i then
    { o with st := streamReducer o.st .COMPLETE, completions := o.completions + 1 }
  else
    match plan[i]? with
    | none => o
    | some (.text_stream content) =>
        { o with st := streamReducer o.st (.BEGIN_TEXT i (tokenize cfg.byChar content)) }
    | some (.instant_render e) =>
        { o with
          st := streamReducer (streamReducer o.st (.INSTANT_RENDER i (.node e.elemId))) .ADVANCE
          pending := o.pending ++ [.runU (i + 1)] }
    | some (.nested_stream e) =>
        { o with
          st := streamReducer o.st (.NESTED_START i (.nestedNode e.elemId))
          pending := o.pending ++ [.nestedHook i] }

/-! ### Concrete states used by witness theorems. -/

/-- A mid-stream text substate: two tokens, cursor at 0, unit 0 active. -/
def demoTextState : TextState :=
  { tokens := [['a'], ['b', 'c']], index := 0, activeUnit := some 0, streaming := true }

/-- A stream state in the middle of streaming unit 0's text. -/
def demoTickState : StreamState :=
  { initialStreamState with text := demoTextState }

/-- Word mode, speed 5. -/
def demoCfg : OrchConfig := ⟨false, 5⟩

/-- An orchestration state before any unit has run. -/
def orchIdle : Orch := { st := initialStreamState, pending := [], completions := 0 }

/-- A current plan of three instant units, longer than the mount-time plan
(length 1) whose length `runUnit`'s stale closure still checks: the
situation after the children changed so that the plan grew from one unit to
three. -/
def grownPlan : List ExecutionUnit :=
  [.instant_render ⟨⟨false, false, false, none⟩, 1⟩,
   .instant_render ⟨⟨false, false, false, none⟩, 2⟩,
   .instant_render ⟨⟨false, false, false, none⟩, 3⟩]

/-- The run over `grownPlan` (mount-time length 1) after the reset effect
called `runUnit 0`: unit 0 rendered instantly, `ADVANCE` dispatched,
continuation `runUnit 1` scheduled. -/
def staleO1 : Orch := runUnitStep 1 grownPlan demoCfg 0 orchIdle

/-- The same run after the scheduled `runUnit 1` fired: `1 ≥ 1` against the
stale mount-time length dispatches `COMPLETE` and invokes the completion
callback while units 1 and 2 of the current plan never rendered. -/
def staleO2 : Orch :=
  runUnitStep 1 grownPlan demoCfg 1
    { staleO1 with pending := staleO1.pending.erase (.runU 1) }

theorem jsSplitWs_join (s : JStr) : (jsSplitWs s).flatten = s := by
  induction s using jsSplitWs.induct with
  | case1 s h =>
    rw [jsSplitWs, h]
    simp only [List.flatten]
    have := List.takeWhile_append_dropWhile (p := fun c => !isJsWhitespace c) (l := s)
    rw [h] at this
    simpa using this
  | case2 s c t h ih =>
    rw [jsSplitWs, h]
    simp only [List.flatten_cons]
    rw [ih, List.takeWhile_append_dropWhile,
      ← h, List.takeWhile_append_dropWhile]

theorem jsSplitChars_join (s : JStr) : (jsSplitChars s).flatten = s := by
  induction s with
  | nil => rfl
  | cons c t ih => simpa [jsSplitChars] using ih


/-! ### Claim C6: round-trip tokenization -/

/-- C6: for every string T, joining (with the empty separator) all tokens
produced by word-mode tokenization of T reproduces T exactly, and the same
holds for character-mode tokenization. -/
theorem claim_C6_tokenize_roundtrip (s : JStr) :
    (tokenize false s).flatten = s ∧ (tokenize true s).flatten = s := by
  constructor
  · simpa [tokenize] using jsSplitWs_join s
  · simpa [tokenize] using jsSplitChars_join s

/-! ### Claim C9: completion is monotone under every action except RESET -/

/-- C9: for every state with `complete = true` and every action other than
RESET, the reducer keeps `complete = true`; only RESET returns completion to
false. -/
theorem claim_C9_complete_monotone (s : StreamState) (a : StreamAction)
    (hc : s.complete = true) (ha : a ≠ .RESET) :
    (streamReducer s a).complete = true := by
  cases a <;> simp_all [streamReducer]

theorem claim_C9_complete_monotone_witness :
    ({ initialStreamState with complete := true } : StreamState).complete = true ∧
    (StreamAction.ADVANCE ≠ StreamAction.RESET) ∧
    (streamReducer { initialStreamState with complete := true } .ADVANCE).complete = true :=
  ⟨by decide, by decide,
    claim_C9_complete_monotone { initialStreamState with complete := true }
      .ADVANCE (by decide) (by decide)⟩

/-! ### Claim C10: TEXT_TICK with no active unit only moves the cursor -/

/-- C10: when `text.activeUnit` is `null`, `TEXT_TICK(nextIndex, content)`
writes no `rendered` entry and changes nothing except `text.index`, which
becomes `nextIndex`. -/
theorem claim_C10_tick_no_active_unit (s : StreamState) (n : Nat) (c : JStr)
    (h : s.text.activeUnit = none) :
    streamReducer s (.TEXT_TICK n c)
      = { s with text := { s.text with index := n } } := by
  simp [streamReducer, h]

theorem claim_C10_tick_no_active_unit_witness :
    initialStreamState.text.activeUnit = none ∧
    streamReducer initialStreamState (.TEXT_TICK 3 ['a'])
      = { initialStreamState with
          text := { initialStreamState.text with index := 3 } } :=
  ⟨by decide, claim_C10_tick_no_active_unit initialStreamState 3 ['a'] (by decide)⟩

/-! ### Claim C7: the text tick is a pure, idempotent function of its inputs -/

theorem lookup_msetEntry_self (m : List (Nat × RVal)) (k : Nat) (v : RVal) :
    (msetEntry m k v).lookup k = some v := by
  induction m with
  | nil => simp [msetEntry, List.lookup]
  | cons kv rest ih =>
    obtain ⟨k', v'⟩ := kv
    by_cases hk : k' = k
    · subst hk
      simp [msetEntry, List.lookup]
    · simp only [msetEntry, if_neg hk]
      rw [List.lookup]
      have : (k == k') = false := by
        simp [Ne.symm hk]
      simp [this, ih]

theorem msetEntry_msetEntry_self (m : List (Nat × RVal)) (k : Nat) (v : RVal) :
    msetEntry (msetEntry m k v) k v = msetEntry m k v := by
  induction m with
  | nil => simp [msetEntry]
  | cons kv rest ih =>
    obtain ⟨k', v'⟩ := kv
    by_cases hk : k' = k
    · subst hk
      simp [msetEntry]
    · simp [msetEntry, hk, ih]

/-- C7: a text tick sets the cursor to
`min(text.index + max(1, speed), tokenCount)`, sets the active unit's
rendered content to the join of tokens `[0, newIndex)`, and re-running the
tick with the same captured inputs yields the same state. -/
theorem claim_C7_text_tick (speed : Nat) (s : StreamState) (u : Nat)
    (hstream : s.text.streaming = true)
    (hlt : s.text.index < s.text.tokens.length)
    (hactive : s.text.activeUnit = some u) :
    ((textTick speed s).text.index
        = min (s.text.index + max 1 speed) s.text.tokens.length) ∧
    ((textTick speed s).rendered.lookup u
        = some (.text ((s.text.tokens.take
            (min (s.text.index + max 1 speed) s.text.tokens.length)).flatten))) ∧
    streamReducer (textTick speed s) (textTickAction speed s.text)
      = textTick speed s := by
  refine ⟨?_, ?_, ?_⟩
  · simp [textTick, textTickAction, streamReducer]
  · simp [textTick, textTickAction, streamReducer, hactive, lookup_msetEntry_self]
  · simp [textTick, textTickAction, streamReducer, hactive, msetEntry_msetEntry_self]

theorem claim_C7_text_tick_witness :
    ((textTick 2 demoTickState).text.index
        = min (demoTickState.text.index + max 1 2) demoTickState.text.tokens.length) ∧
    ((textTick 2 demoTickState).rendered.lookup 0
        = some (.text ((demoTickState.text.tokens.take
            (min (demoTickState.text.index + max 1 2)
              demoTickState.text.tokens.length)).flatten))) ∧
    streamReducer (textTick 2 demoTickState) (textTickAction 2 demoTickState.text)
      = textTick 2 demoTickState :=
  claim_C7_text_tick 2 demoTickState 0 (by decide) (by decide) (by decide)

/-! ### Claim C8: `buildPlan` realizes the spec's §4.1 rules -/

theorem jsTrim_eq_nil_iff (s : JStr) :
    jsTrim s = [] ↔ ∀ c ∈ s, isJsWhitespace c := by
  unfold jsTrim
  rw [List.reverse_eq_nil_iff, List.dropWhile_eq_nil_iff]
  simp only [List.mem_reverse]
  constructor
  · intro h c hc
    have hsplit : c ∈ s.takeWhile isJsWhitespace ++ s.dropWhile isJsWhitespace := by
      rw [List.takeWhile_append_dropWhile]
      exact hc
    rcases List.mem_append.1 hsplit with h1 | h2
    · exact List.mem_takeWhile_imp h1
    · exact h c h2
  · intro h c hc
    exact h c ((List.dropWhile_sublist isJsWhitespace).subset hc)

mutual

theorem buildPlan_eq_spec (n : ReactNode) : buildPlan n = specTransform n := by
  cases n with
  | nullNode => rfl
  | boolNode b => rfl
  | strNode s =>
    show (if jsTrim s = [] then [] else [ExecutionUnit.text_stream s])
        = if s.any (fun c => !isJsWhitespace c) then [ExecutionUnit.text_stream s] else []
    by_cases h : ∀ c ∈ s, isJsWhitespace c
    · rw [if_pos ((jsTrim_eq_nil_iff s).2 h), if_neg]
      simp only [List.any_eq_true, not_exists, not_and]
      intro c hc
      simp [h c hc]
    · rw [if_neg (fun hnil => h ((jsTrim_eq_nil_iff s).1 hnil)), if_pos]
      push_neg at h
      obtain ⟨c, hc, hn⟩ := h
      simp only [List.any_eq_true]
      exact ⟨c, hc, by simp [hn]⟩
  | numNode r => rfl
  | arrNode xs =>
    show buildPlanList xs = specTransformList xs
    exact buildPlanList_eq_spec xs
  | fragNode c =>
    show buildPlan c = specTransform c
    exact buildPlan_eq_spec c
  | elemNode e => rfl

theorem buildPlanList_eq_spec (xs : List ReactNode) :
    buildPlanList xs = specTransformList xs := by
  cases xs with
  | nil => rfl
  | cons x rest =>
    show buildPlan x ++ buildPlanList rest = specTransform x ++ specTransformList rest
    rw [buildPlan_eq_spec x, buildPlanList_eq_spec rest]

end

/-- C8: `buildPlan` returns exactly the plan given by the spec's §4.1 rules —
null and booleans produce nothing; a string produces one `text_stream` unit
with the original string iff it contains a non-whitespace character; a number
produces one `text_stream` unit with its string representation; arrays and
fragments flatten in order; an element becomes a `nested_stream` unit exactly
when the capability marker is found on its type, its type's `.type`, its
type's `.render`, or the `displayName` fallback matches, and an
`instant_render` unit otherwise. -/
theorem claim_C8_buildPlan_follows_spec (n : ReactNode) :
    buildPlan n = specTransform n :=
  buildPlan_eq_spec n

/-! ### Claim C3: the run-token fence cancels pre-reset callbacks -/

/-- A firing timer whose token is stale executes nothing (the guard
`runIdRef.current === token` fails). -/
theorem schedStep_fire_stale (s : SchedState) (idx : Nat) (e : SchedEntry)
    (he : s.pending[idx]? = some e) (hne : e.token ≠ s.runId) :
    (schedStep s (.fire idx)).executed = s.executed := by
  simp [schedStep, he, hne]

/-- If callback `k` has not executed, is not pending, and is never scheduled
again, then it never executes. -/
theorem sched_no_exec_of_not_pending (k : Nat) :
    ∀ (ops : List SchedOp) (s : SchedState),
      k ∉ s.executed → (∀ e ∈ s.pending, e.fnId ≠ k) →
      (∀ fnId, SchedOp.schedule fnId ∈ ops → fnId ≠ k) →
      k ∉ (ops.foldl schedStep s).executed := by
  intro ops
  induction ops with
  | nil =>
    intro s hex _ _
    simpa using hex
  | cons op rest ih =>
    intro s hex hpend hops
    simp only [List.foldl_cons]
    refine ih (schedStep s op) ?_ ?_ ?_
    · cases op with
      | schedule fnId => simpa [schedStep] using hex
      | cancelAll => simpa [schedStep] using hex
      | nextRunToken => simpa [schedStep] using hex
      | fire idx =>
        cases he : s.pending[idx]? with
        | none => simpa [schedStep, he] using hex
        | some e =>
          by_cases ht : e.token = s.runId
          · have hne : e.fnId ≠ k := hpend e (List.getElem?_mem he)
            simp only [schedStep, he, if_pos ht, List.mem_append,
              List.mem_singleton]
            rintro (h | h)
            · exact hex h
            · exact hne h.symm
          · simpa [schedStep, he, ht] using hex
    · cases op with
      | schedule fnId =>
        intro e he
        simp only [schedStep, List.mem_append, List.mem_singleton] at he
        rcases he with he | he
        · exact hpend e he
        · subst he
          exact hops fnId (List.mem_cons_self _ _)
      | cancelAll =>
        intro e he
        simp [schedStep] at he
      | nextRunToken =>
        intro e he
        simp [schedStep] at he
      | fire idx =>
        intro e he
        cases hp : s.pending[idx]? with
        | none =>
          rw [schedStep, hp] at he
          exact hpend e he
        | some e' =>
          by_cases ht : e'.token = s.runId
          · simp only [schedStep, hp, if_pos ht] at he
            exact hpend e ((List.eraseIdx_sublist s.pending idx).subset he)
          · simp only [schedStep, hp, if_neg ht] at he
            exact hpend e ((List.eraseIdx_sublist s.pending idx).subset he)
    · intro fnId hmem
      exact hops fnId (List.mem_cons_of_mem _ hmem)

/-- C3: a callback scheduled under a run token that has not yet fired when
`nextRunToken` runs is never executed afterwards — no effect of a pre-reset
tick is observed in the post-reset state. -/
theorem claim_C3_token_fence_cancellation (ops1 ops2 : List SchedOp) (k : Nat)
    (hsched : SchedOp.schedule k ∈ ops1)
    (hnotfired : k ∉ (schedRun ops1).executed)
    (hfresh : ∀ fnId, SchedOp.schedule fnId ∈ ops2 → fnId ≠ k) :
    k ∉ (schedRun (ops1 ++ SchedOp.nextRunToken :: ops2)).executed := by
  rw [schedRun, List.foldl_append, List.foldl_cons]
  refine sched_no_exec_of_not_pending k ops2 _ ?_ ?_ hfresh
  · simpa [schedStep, schedRun] using hnotfired
  · intro e he
    simp [schedStep] at he

theorem claim_C3_token_fence_cancellation_witness :
    (SchedOp.schedule 7 ∈ [SchedOp.schedule 7]) ∧
    (7 ∉ (schedRun [SchedOp.schedule 7]).executed) ∧
    7 ∉ (schedRun ([SchedOp.schedule 7] ++ SchedOp.nextRunToken ::
          [SchedOp.schedule 9, SchedOp.fire 0, SchedOp.fire 0])).executed :=
  ⟨by decide, by decide,
    claim_C3_token_fence_cancellation [SchedOp.schedule 7]
      [SchedOp.schedule 9, SchedOp.fire 0, SchedOp.fire 0] 7
      (by decide) (by decide)
      (by
        intro fnId hmem
        simp only [List.mem_cons, List.not_mem_nil, or_false] at hmem
        rcases hmem with h | h | h <;> first
          | (cases h; omega)
          | exact absurd h (by simp))⟩

/-! ### Claim C4: the composed nested completion hook -/

/-- C4: the composed completion hook first invokes the completion hook the
child already carried (when present), and then — whether or not that
invocation raised — dispatches `NESTED_DONE` and `ADVANCE` and schedules the
continuation to the next unit, while a raised condition propagates outward
instead of being swallowed. -/
theorem claim_C4_composed_hook (childExisting : Option (Except JStr Unit))
    (unitIndex : Nat) (h : HookState) :
    ((composedHook childExisting unitIndex h).1.stream.waitingNested = false) ∧
    ((composedHook childExisting unitIndex h).1.stream.unitIndex
        = h.stream.unitIndex + 1) ∧
    ((composedHook childExisting unitIndex h).1.queue
        = h.queue ++ [unitIndex + 1]) ∧
    ((composedHook childExisting unitIndex h).1.trace
        = h.trace ++
            ((match childExisting with
              | none => []
              | some _ => [HookEv.childCompletionHook]) ++
              [HookEv.dispatched .NESTED_DONE, HookEv.dispatched .ADVANCE,
                HookEv.scheduledRun (unitIndex + 1)])) ∧
    ((composedHook childExisting unitIndex h).2
        = match childExisting with
          | some (.error e) => some e
          | _ => none) := by
  cases childExisting with
  | none =>
    simp [composedHook, hookDispatch, hookSchedule, streamReducer]
  | some outcome =>
    cases outcome <;>
      simp [composedHook, hookDispatch, hookSchedule, streamReducer]

/-! ### Claim C5: the stale terminal boundary breaks the completion
invariant -/

/-- C5 names an invariant of the spec that the code breaks: `runUnit` checks
the terminal boundary against the mount-time closure plan's length while the
units come from the current plan, so once the plan has grown since mount the
run dispatches `COMPLETE` at the stale boundary.  This theorem evaluates the
code on the failing input: mount-time plan length 1, current plan of three
instant units; after `runUnit 0` and the scheduled continuation `runUnit 1`,
the state is complete and the completion callback was invoked, yet units 1
and 2 have no rendered entry. -/
theorem claim_C5_stale_boundary_violation :
    grownPlan.length = 3 ∧
    staleO2.st.complete = true ∧
    staleO2.completions = 1 ∧
    mhas staleO2.st.rendered 0 = true ∧
    mhas staleO2.st.rendered 1 = false ∧
    mhas staleO2.st.rendered 2 = false := by
  decide

/-! ### Claim C1: completion callback at the terminal unit boundary -/

/-- C1 fails as stated, in two ways.  With a current plan shorter than the
mount-time plan, `runUnit 0` — although `0 ≥` the current plan's length —
dispatches no COMPLETE and invokes no completion callback: the stale
boundary check `unitIndex >= plan.length` uses the mount-time length 2, and
the lookup in the empty current plan hits `if (!unit) return`.  And there is
no idempotence guard: crossing the terminal boundary twice within the same
run token invokes the callback twice, not once. -/
theorem claim_C1_stale_boundary_counterexample :
    ((runUnitStep 2 [] demoCfg 0 orchIdle).st.complete = false ∧
      (runUnitStep 2 [] demoCfg 0 orchIdle).completions = 0) ∧
    (runUnitStep 0 [] demoCfg 0
        (runUnitStep 0 [] demoCfg 0 orchIdle)).completions = 2 := by
  decide

/-- C1 (amended): the boundary `runUnit` actually checks is the mount-time
closure plan's length.  Invoked with an index at or past that boundary, it
dispatches COMPLETE and invokes the completion callback, once per such
invocation (there is no idempotence guard); invoked with an index below the
mount-time boundary but at or past the current plan's end, it returns with
no action at all. -/
theorem claim_C1_amended_mount_boundary (mountLen : Nat)
    (plan : List ExecutionUnit) (cfg : OrchConfig) (i : Nat) (o : Orch) :
    (mountLen ≤ i →
      (runUnitStep mountLen plan cfg i o).st.complete = true ∧
      (runUnitStep mountLen plan cfg i o).completions = o.completions + 1) ∧
    (i < mountLen → plan.length ≤ i →
      runUnitStep mountLen plan cfg i o = o) := by
  constructor
  · intro hi
    rw [runUnitStep, if_pos hi]
    exact ⟨rfl, rfl⟩
  · intro hlt hplen
    rw [runUnitStep, if_neg (by omega), List.getElem?_eq_none hplen]

theorem claim_C1_amended_mount_boundary_witness :
    (((runUnitStep 0 [] demoCfg 0 orchIdle).st.complete = true ∧
      (runUnitStep 0 [] demoCfg 0 orchIdle).completions
        = orchIdle.completions + 1) ∧
      runUnitStep 2 [] demoCfg 0 orchIdle = orchIdle) :=
  ⟨(claim_C1_amended_mount_boundary 0 [] demoCfg 0 orchIdle).1 (by decide),
    (claim_C1_amended_mount_boundary 2 [] demoCfg 0 orchIdle).2
      (by decide) (by decide)⟩

/-! ### Claim C2: the plan signature -/

theorem hexVal_hexDigitChar (n : Nat) (h : n < 16) :
    hexVal (hexDigitChar n) = n := by
  interval_cases n <;> decide

theorem jsonEscape_nil : jsonEscape [] = [] := rfl

theorem jsonEscape_cons (c : Char) (t : JStr) :
    jsonEscape (c :: t) = jsonEscapeChar c ++ jsonEscape t := by
  simp [jsonEscape]

theorem char_eq_of_toNat_eq {c1 c2 : Char} (h : c1.toNat = c2.toNat) :
    c1 = c2 := by
  rw [← Char.ofNat_toNat c1, h, Char.ofNat_toNat]

/-- Reading one character off an escaped string returns the character that
was escaped, with the remainder intact. -/
theorem decodeOne_escape (c : Char) (t : JStr) :
    decodeOne (jsonEscapeChar c ++ t) = some (c, t) := by
  by_cases h1 : c = '"'
  · rw [jsonEscapeChar, if_pos h1]
    subst h1
    simp [decodeOne]
  · rw [jsonEscapeChar, if_neg h1]
    by_cases h2 : c = '\\'
    · rw [if_pos h2]
      subst h2
      simp [decodeOne]
    · rw [if_neg h2]
      by_cases h3 : c = Char.ofNat 8
      · rw [if_pos h3]
        subst h3
        simp [decodeOne]
      · rw [if_neg h3]
        by_cases h4 : c = Char.ofNat 9
        · rw [if_pos h4]
          subst h4
          simp [decodeOne]
        · rw [if_neg h4]
          by_cases h5 : c = Char.ofNat 10
          · rw [if_pos h5]
            subst h5
            simp [decodeOne]
          · rw [if_neg h5]
            by_cases h6 : c = Char.ofNat 12
            · rw [if_pos h6]
              subst h6
              simp [decodeOne]
            · rw [if_neg h6]
              by_cases h7 : c = Char.ofNat 13
              · rw [if_pos h7]
                subst h7
                simp [decodeOne]
              · rw [if_neg h7]
                by_cases h8 : c.toNat < 32
                · rw [if_pos h8]
                  have hred : decodeOne
                      (['\\', 'u', '0', '0', hexDigitChar (c.toNat / 16),
                        hexDigitChar (c.toNat % 16)] ++ t)
                      = some (Char.ofNat
                          (hexVal '0' * 4096 + hexVal '0' * 256 +
                            hexVal (hexDigitChar (c.toNat / 16)) * 16 +
                            hexVal (hexDigitChar (c.toNat % 16))), t) := by
                    simp [decodeOne]
                  rw [hred]
                  have hd1 : hexVal (hexDigitChar (c.toNat / 16)) = c.toNat / 16 :=
                    hexVal_hexDigitChar _ (by omega)
                  have hd2 : hexVal (hexDigitChar (c.toNat % 16)) = c.toNat % 16 :=
                    hexVal_hexDigitChar _ (by omega)
                  have h00 : hexVal '0' = 0 := by decide
                  rw [hd1, hd2, h00]
                  have hval : 0 * 4096 + 0 * 256 + c.toNat / 16 * 16 + c.toNat % 16
                      = c.toNat := by omega
                  rw [hval, Char.ofNat_toNat]
                · rw [if_neg h8]
                  have hc : decodeOne ([c] ++ t) = decodeOne (c :: t) := rfl
                  rw [hc]
                  simp [decodeOne, h2]

/-- Escaping one character is injective, even followed by arbitrary tails. -/
theorem jsonEscapeChar_append_inj (c1 c2 : Char) (t1 t2 : JStr)
    (h : jsonEscapeChar c1 ++ t1 = jsonEscapeChar c2 ++ t2) :
    c1 = c2 ∧ t1 = t2 := by
  have h1 := decodeOne_escape c1 t1
  rw [h, decodeOne_escape c2 t2] at h1
  injection h1 with h1
  exact ⟨(Prod.mk.injEq _ _ _ _ ▸ h1).1.symm, (Prod.mk.injEq _ _ _ _ ▸ h1).2.symm⟩

/-- The escape of a character never begins with an unescaped quote. -/
theorem jsonEscapeChar_append_ne_quote (c : Char) (x y : JStr) :
    jsonEscapeChar c ++ x ≠ '"' :: y := by
  intro h
  by_cases h1 : c = '"'
  · rw [jsonEscapeChar, if_pos h1] at h
    cases h
  · rw [jsonEscapeChar, if_neg h1] at h
    by_cases h2 : c = '\\'
    · rw [if_pos h2] at h
      cases h
    · rw [if_neg h2] at h
      by_cases h3 : c = Char.ofNat 8
      · rw [if_pos h3] at h
        cases h
      · rw [if_neg h3] at h
        by_cases h4 : c = Char.ofNat 9
        · rw [if_pos h4] at h
          cases h
        · rw [if_neg h4] at h
          by_cases h5 : c = Char.ofNat 10
          · rw [if_pos h5] at h
            cases h
          · rw [if_neg h5] at h
            by_cases h6 : c = Char.ofNat 12
            · rw [if_pos h6] at h
              cases h
            · rw [if_neg h6] at h
              by_cases h7 : c = Char.ofNat 13
              · rw [if_pos h7] at h
                cases h
              · rw [if_neg h7] at h
                by_cases h8 : c.toNat < 32
                · rw [if_pos h8] at h
                  cases h
                · rw [if_neg h8] at h
                  have : c = '"' := by
                    have := List.cons.inj h
                    exact this.1
                  exact h1 this

/-- Escaping whole strings, each followed by a closing quote, is injective. -/
theorem jsonEscape_frame_inj : ∀ (s1 s2 r1 r2 : JStr),
    jsonEscape s1 ++ '"' :: r1 = jsonEscape s2 ++ '"' :: r2 →
    s1 = s2 ∧ r1 = r2 := by
  intro s1
  induction s1 with
  | nil =>
    intro s2 r1 r2 h
    cases s2 with
    | nil =>
      simp only [jsonEscape_nil, List.nil_append] at h
      exact ⟨rfl, (List.cons.inj h).2⟩
    | cons c t =>
      simp only [jsonEscape_nil, jsonEscape_cons, List.nil_append,
        List.append_assoc] at h
      exact absurd h.symm (jsonEscapeChar_append_ne_quote c _ _)
  | cons c1 t1 ih =>
    intro s2 r1 r2 h
    cases s2 with
    | nil =>
      simp only [jsonEscape_nil, jsonEscape_cons, List.nil_append,
        List.append_assoc] at h
      exact absurd h (jsonEscapeChar_append_ne_quote c1 _ _)
    | cons c2 t2 =>
      rw [jsonEscape_cons, jsonEscape_cons, List.append_assoc, List.append_assoc] at h
      obtain ⟨hc, htail⟩ := jsonEscapeChar_append_inj c1 c2 _ _ h
      obtain ⟨hs, hr⟩ := ih t2 r1 r2 htail
      exact ⟨by rw [hc, hs], hr⟩

/-- The JSON encoding of one unit determines its key and the following
text. -/
theorem encodeUnit_append_inj (u1 u2 : ExecutionUnit) (t1 t2 : JStr)
    (h : encodeUnit u1 ++ t1 = encodeUnit u2 ++ t2) :
    unitKey u1 = unitKey u2 ∧ t1 = t2 := by
  cases u1 with
  | text_stream s1 =>
    cases u2 with
    | text_stream s2 =>
      simp only [encodeUnit, List.cons_append, List.append_assoc,
        List.cons.injEq, true_and] at h
      have h' : jsonEscape s1 ++ '"' :: (']' :: t1)
          = jsonEscape s2 ++ '"' :: (']' :: t2) := by
        simpa using h
      obtain ⟨hs, hr⟩ := jsonEscape_frame_inj s1 s2 (']' :: t1) (']' :: t2) h'
      exact ⟨by rw [unitKey, unitKey, hs], (List.cons.inj hr).2⟩
    | nested_stream e2 =>
      simp only [encodeUnit, List.cons_append, List.cons.injEq] at h
      exact absurd h.2.2.1 (by decide)
    | instant_render e2 =>
      simp only [encodeUnit, List.cons_append, List.cons.injEq] at h
      exact absurd h.2.2.1 (by decide)
  | nested_stream e1 =>
    cases u2 with
    | text_stream s2 =>
      simp only [encodeUnit, List.cons_append, List.cons.injEq] at h
      exact absurd h.2.2.1 (by decide)
    | nested_stream e2 =>
      simp only [encodeUnit, List.cons_append, List.cons.injEq, true_and] at h
      exact ⟨rfl, h⟩
    | instant_render e2 =>
      simp only [encodeUnit, List.cons_append, List.cons.injEq] at h
      exact absurd h.2.2.1 (by decide)
  | instant_render e1 =>
    cases u2 with
    | text_stream s2 =>
      simp only [encodeUnit, List.cons_append, List.cons.injEq] at h
      exact absurd h.2.2.1 (by decide)
    | nested_stream e2 =>
      simp only [encodeUnit, List.cons_append, List.cons.injEq] at h
      exact absurd h.2.2.1 (by decide)
    | instant_render e2 =>
      simp only [encodeUnit, List.cons_append, List.cons.injEq, true_and] at h
      exact ⟨rfl, h⟩

/-- Every unit encoding begins with an opening bracket. -/
theorem encodeUnit_append_head (u : ExecutionUnit) (x : JStr) :
    ∃ y, encodeUnit u ++ x = '[' :: y := by
  cases u <;> exact ⟨_, rfl⟩

/-- The comma-separated signature body, followed by a closing bracket,
determines the key sequence. -/
theorem sigBody_append_inj : ∀ (p1 p2 : List ExecutionUnit) (r1 r2 : JStr),
    r1.head? = some ']' → r2.head? = some ']' →
    sigBody p1 ++ r1 = sigBody p2 ++ r2 →
    p1.map unitKey = p2.map unitKey ∧ r1 = r2 := by
  intro p1
  induction p1 with
  | nil =>
    intro p2 r1 r2 hr1 hr2 h
    cases p2 with
    | nil =>
      simp only [sigBody, List.nil_append] at h
      exact ⟨rfl, h⟩
    | cons u p2' =>
      rw [sigBody, List.nil_append, sigBody, List.append_assoc] at h
      obtain ⟨y, hy⟩ := encodeUnit_append_head u
        ((if p2'.isEmpty then [] else ',' :: sigBody p2') ++ r2)
      rw [h, hy] at hr1
      simp at hr1
  | cons u1 p1' ih =>
    intro p2 r1 r2 hr1 hr2 h
    cases p2 with
    | nil =>
      rw [sigBody, List.nil_append, sigBody, List.append_assoc] at h
      obtain ⟨y, hy⟩ := encodeUnit_append_head u1
        ((if p1'.isEmpty then [] else ',' :: sigBody p1') ++ r1)
      rw [h.symm, hy] at hr2
      simp at hr2
    | cons u2 p2' =>
      rw [sigBody, sigBody, List.append_assoc, List.append_assoc] at h
      obtain ⟨hkey, htail⟩ := encodeUnit_append_inj u1 u2 _ _ h
      cases p1' with
      | nil =>
        cases p2' with
        | nil =>
          simp only [List.isEmpty_nil, if_true, List.nil_append] at htail
          refine ⟨?_, htail⟩
          simp only [List.map_cons, List.map_nil, hkey]
        | cons v2 q2 =>
          simp at htail
          rw [htail] at hr1
          simp at hr1
      | cons v1 q1 =>
        cases p2' with
        | nil =>
          simp at htail
          rw [← htail] at hr2
          simp at hr2
        | cons v2 q2 =>
          simp at htail
          obtain ⟨hmaps, hr⟩ := ih (v2 :: q2) r1 r2 hr1 hr2 htail
          refine ⟨?_, hr⟩
          simp only [List.map_cons, hkey, hmaps]

/-- Units with the same key have the same JSON encoding. -/
theorem encodeUnit_congr (u1 u2 : ExecutionUnit) (h : unitKey u1 = unitKey u2) :
    encodeUnit u1 = encodeUnit u2 := by
  cases u1 <;> cases u2 <;> simp [unitKey] at h <;> simp [encodeUnit, h]

/-- Plans with the same key sequence have the same signature body. -/
theorem sigBody_congr : ∀ p1 p2 : List ExecutionUnit,
    p1.map unitKey = p2.map unitKey → sigBody p1 = sigBody p2 := by
  intro p1
  induction p1 with
  | nil =>
    intro p2 h
    have : p2 = [] := by
      have hlen := congrArg List.length h
      simp at hlen
      exact List.eq_nil_of_length_eq_zero hlen.symm
    rw [this]
  | cons u1 t1 ih =>
    intro p2 h
    cases p2 with
    | nil => simp at h
    | cons u2 t2 =>
      simp only [List.map_cons, List.cons.injEq] at h
      rw [sigBody, sigBody, encodeUnit_congr u1 u2 h.1, ih t2 h.2]
      have hempty : t1.isEmpty = t2.isEmpty := by
        cases t1 with
        | nil =>
          cases t2 with
          | nil => rfl
          | cons v q => simp at h
        | cons v q =>
          cases t2 with
          | nil => simp at h
          | cons w q2 => rfl
      rw [hempty]

/-- The signature is equal exactly when the key sequences are equal. -/
theorem planSignature_eq_iff_keys (p1 p2 : List ExecutionUnit) :
    planSignature p1 = planSignature p2 ↔ p1.map unitKey = p2.map unitKey := by
  constructor
  · intro h
    simp only [planSignature, List.cons.injEq, true_and] at h
    exact (sigBody_append_inj p1 p2 [']'] [']'] rfl rfl h).1
  · intro h
    simp only [planSignature, sigBody_congr p1 p2 h]

/-- Kind of a key. -/
def kindOfKey : UnitKey → UnitKind
  | .T _ => .text
  | .N => .nested
  | .I => .instant

/-- Text content of a key. -/
def textOfKey : UnitKey → Option JStr
  | .T s => some s
  | .N => none
  | .I => none

theorem unitKind_eq_kindOfKey (u : ExecutionUnit) :
    unitKind u = kindOfKey (unitKey u) := by
  cases u <;> rfl

theorem textContentAt_eq (p : List ExecutionUnit) (i : Nat) :
    textContentAt p i = (p.map unitKey)[i]?.bind textOfKey := by
  rw [textContentAt, List.getElem?_map]
  cases hp : p[i]? with
  | none => rfl
  | some u => cases u <;> rfl

theorem textContentAt_cons_succ (u : ExecutionUnit) (t : List ExecutionUnit)
    (i : Nat) : textContentAt (u :: t) (i + 1) = textContentAt t i := by
  rw [textContentAt, textContentAt, List.getElem?_cons_succ]

theorem textContentAt_cons_zero (u : ExecutionUnit) (t : List ExecutionUnit) :
    textContentAt (u :: t) 0
      = match u with
        | .text_stream s => some s
        | _ => none := by
  rw [textContentAt, List.getElem?_cons_zero]
  cases u <;> rfl

/-- Key-sequence equality is the same as kind-sequence equality plus
positionwise text-content equality. -/
theorem keys_eq_iff_kinds_texts : ∀ p1 p2 : List ExecutionUnit,
    p1.map unitKey = p2.map unitKey ↔
      (p1.map unitKind = p2.map unitKind ∧
        ∀ i, textContentAt p1 i = textContentAt p2 i) := by
  intro p1
  induction p1 with
  | nil =>
    intro p2
    cases p2 with
    | nil => simp
    | cons u2 t2 => simp
  | cons u1 t1 ih =>
    intro p2
    cases p2 with
    | nil => simp
    | cons u2 t2 =>
      constructor
      · intro h
        simp only [List.map_cons, List.cons.injEq] at h
        obtain ⟨hk, ht⟩ := h
        refine ⟨?_, ?_⟩
        · simp only [List.map_cons, List.cons.injEq]
          exact ⟨by rw [unitKind_eq_kindOfKey, unitKind_eq_kindOfKey, hk],
            ((ih t2).1 ht).1⟩
        · intro i
          cases i with
          | zero =>
            rw [textContentAt_cons_zero, textContentAt_cons_zero]
            cases u1 <;> cases u2 <;> simp [unitKey] at hk <;> simp [hk]
          | succ i' =>
            rw [textContentAt_cons_succ, textContentAt_cons_succ]
            exact ((ih t2).1 ht).2 i'
      · intro h
        obtain ⟨hkind, htext⟩ := h
        simp only [List.map_cons, List.cons.injEq] at hkind ⊢
        refine ⟨?_, ?_⟩
        · have h0 := htext 0
          rw [textContentAt_cons_zero, textContentAt_cons_zero] at h0
          cases u1 with
          | text_stream s1 =>
            cases u2 with
            | text_stream s2 =>
              simp only at h0
              rw [unitKey, unitKey]
              rw [Option.some.injEq] at h0
              rw [h0]
            | instant_render e2 => simp [unitKind] at hkind
            | nested_stream e2 => simp [unitKind] at hkind
          | instant_render e1 =>
            cases u2 with
            | text_stream s2 => simp [unitKind] at hkind
            | instant_render e2 => rfl
            | nested_stream e2 => simp [unitKind] at hkind
          | nested_stream e1 =>
            cases u2 with
            | text_stream s2 => simp [unitKind] at hkind
            | instant_render e2 => simp [unitKind] at hkind
            | nested_stream e2 => rfl
        · refine (ih t2).2 ⟨hkind.2, ?_⟩
          intro i
          have := htext (i + 1)
          rw [textContentAt_cons_succ, textContentAt_cons_succ] at this
          exact this

/-- C2: two plans have equal signatures exactly when they have the same
sequence of unit kinds and every text unit at the same position has equal
content; in particular, changing only the node identity of
`instant_render`/`nested_stream` units never changes the signature (the
right-hand side never mentions element identity). -/
theorem claim_C2_signature_characterization (p1 p2 : List ExecutionUnit) :
    planSignature p1 = planSignature p2 ↔
      (p1.map unitKind = p2.map unitKind ∧
        ∀ i, textContentAt p1 i = textContentAt p2 i) := by
  rw [planSignature_eq_iff_keys, keys_eq_iff_kinds_texts]

end TreeStreamVerif
